import Mathlib

/-!
Verification development for the basenji tutorial data-preparation pipeline.

The repository's visible material (tutorial notebooks) orchestrates an
external data-preparation pipeline with four components: a Genome Windower,
a Split Assigner, a Coverage Aggregator and a Record Writer.  The pipeline
scripts themselves are not part of the supplied sources, so each component
below is modelled from the specification's contracts and checked against
the concrete values recorded in the notebooks.
-/

namespace Basenji

/-! ## Split Assigner -/

/-- A train/validation/test partition label. -/
inductive Split
  | train
  | valid
  | test
deriving DecidableEq, Repr

/-- Running totals of assigned nucleotides per split. -/
structure SplitTotals where
  train : ℚ
  valid : ℚ
  test : ℚ
deriving DecidableEq, Repr

/-- Total nucleotides assigned so far across all splits. -/
def SplitTotals.total (a : SplitTotals) : ℚ := a.train + a.valid + a.test

/-- The running total of one split. -/
def SplitTotals.get (a : SplitTotals) : Split → ℚ
  | .train => a.train
  | .valid => a.valid
  | .test => a.test

/-- Modelled from the spec: target fraction of each split, where `fv` and
`ft` are the requested validation and test fractions and training receives
the remainder (the `-v` and `-t` options of `basenji_data.py`, which is
not among the supplied sources). -/
def targetFrac (fv ft : ℚ) : Split → ℚ
  | .train => 1 - fv - ft
  | .valid => fv
  | .test => ft

/-- How far a split currently sits below its target share: its target
fraction of the nucleotides assigned so far, minus what it actually holds. -/
def deficit (fv ft : ℚ) (a : SplitTotals) (s : Split) : ℚ :=
  targetFrac fv ft s * a.total - a.get s

/-- Modelled from the spec: the Split Assigner's choice rule — each contig
goes to whichever split is currently furthest below its target fraction,
with a fixed deterministic tie-break (train, then valid, then test). -/
def chooseSplit (fv ft : ℚ) (a : SplitTotals) : Split :=
  if deficit fv ft a .train < deficit fv ft a .valid then
    (if deficit fv ft a .valid < deficit fv ft a .test then .test else .valid)
  else
    (if deficit fv ft a .train < deficit fv ft a .test then .test else .train)

/-- Add a contig of `c` nucleotides to split `s`. -/
def addTo (a : SplitTotals) (s : Split) (c : ℚ) : SplitTotals :=
  match s with
  | .train => { a with train := a.train + c }
  | .valid => { a with valid := a.valid + c }
  | .test => { a with test := a.test + c }

/-- One step of the Split Assigner: assign a whole contig of size `c` to the
split currently furthest below its target fraction. -/
def assignStep (fv ft : ℚ) (a : SplitTotals) (c : ℚ) : SplitTotals :=
  addTo a (chooseSplit fv ft a) c

/-- Modelled from the spec: the Split Assigner processes the ordered contig
sizes left to right, accumulating running totals per split
(`basenji_data.py`'s contig division is not among the supplied sources). -/
def assignContigs (fv ft : ℚ) (sizes : List ℚ) : SplitTotals :=
  sizes.foldl (assignStep fv ft) ⟨0, 0, 0⟩

/-- The split label given to each contig, in contig order. -/
def assignLabels (fv ft : ℚ) (sizes : List ℚ) : List Split :=
  (sizes.foldl
    (fun (p : SplitTotals × List Split) c =>
      (assignStep fv ft p.1 c, p.2 ++ [chooseSplit fv ft p.1]))
    (⟨0, 0, 0⟩, [])).2

/-- Modelled from the spec: one run of the Split Assigner, tagged with a run
index.  The spec states the assigner uses no randomization, so the run index
does not influence the computation. -/
def runSplitAssigner (_runIndex : ℕ) (fv ft : ℚ) (sizes : List ℚ) : List Split :=
  assignLabels fv ft sizes

/-! ## Genome Windower -/

/-- Configuration failure of the Genome Windower. -/
inductive ConfigError
  | invalidParams
deriving DecidableEq, Repr

/-- Gaps of `[pos, G)` left uncovered by a sorted list of mask intervals:
the maximal contiguous mappable regions. -/
def contigGaps (G : ℕ) (pos : ℕ) : List (ℕ × ℕ) → List (ℕ × ℕ)
  | [] => if pos < G then [(pos, G)] else []
  | (s, e) :: rest =>
      (if pos < s then [(pos, s)] else []) ++ contigGaps G (max pos e) rest

/-- Modelled from the spec: Contigs are the maximal contiguous mappable
regions of a genome of length `G`, obtained by removing the sorted
unmappable-mask intervals (the contig construction of `basenji_data.py` is
not among the supplied sources). -/
def contigsOfMask (G : ℕ) (mask : List (ℕ × ℕ)) : List (ℕ × ℕ) :=
  contigGaps G 0 mask

/-- Number of windows of length `L` at stride `stride` fitting in a contig
of length `clen`. -/
def numWindows (clen L stride : ℕ) : ℕ :=
  if clen < L then 0 else (clen - L) / stride + 1

/-- The windows of length `L`, strided by `stride`, inside the contig
`[cs, ce)`. -/
def contigWindows (cs ce L stride : ℕ) : List (ℕ × ℕ) :=
  (List.range (numWindows (ce - cs) L stride)).map
    (fun i => (cs + i * stride, cs + i * stride + L))

/-- Modelled from the spec: deterministic down-sampling to a fraction
`dn / dd` of the candidate windows — window `i` is kept when the running
quota `⌊(i+1)·dn/dd⌋` exceeds `⌊i·dn/dd⌋` (a deterministic stand-in for the
seeded pseudo-random subset described by the spec). -/
def keepWindow (dn dd i : ℕ) : Bool :=
  i * dn / dd < (i + 1) * dn / dd

/-- Down-sample a window list, keeping the windows whose index satisfies
`keepWindow`. -/
def downsampleWindows (dn dd : ℕ) (ws : List (ℕ × ℕ)) : List (ℕ × ℕ) :=
  (ws.enum.filter (fun p => keepWindow dn dd p.1)).map Prod.snd

/-- Modelled from the spec: all windows the Genome Windower produces for a
genome of length `G` with unmappable mask `mask`, window length `L`, stride
`stride` and down-sample fraction `dn / dd` (the windowing of
`basenji_data.py` is not among the supplied sources). -/
def windowerWindows (G : ℕ) (mask : List (ℕ × ℕ)) (L stride dn dd : ℕ) :
    List (ℕ × ℕ) :=
  downsampleWindows dn dd
    ((contigsOfMask G mask).flatMap (fun c => contigWindows c.1 c.2 L stride))

/-- Modelled from the spec: the Genome Windower entry point.  It fails with
`ConfigError` when the requested window length or stride is nonpositive and
otherwise produces the window list. -/
def genomeWindower (G : ℕ) (mask : List (ℕ × ℕ)) (L stride : ℤ)
    (dn dd : ℕ) : Except ConfigError (List (ℕ × ℕ)) :=
  if L ≤ 0 ∨ stride ≤ 0 then .error .invalidParams
  else .ok (windowerWindows G mask L.toNat stride.toNat dn dd)

/-! ## Coverage Aggregator -/

/-- The summary statistic of a track (the `sum_stat` column of the samples
table). -/
inductive SumStat
  | sum
  | mean
deriving DecidableEq, Repr

/-- Read failure of one track: its source file is unreadable, or requested
coordinates fall outside its addressable range. -/
inductive TrackReadError
  | unreadable
  | outOfRange
deriving DecidableEq, Repr

/-- Modelled from the spec: a signal Track — its addressable range length,
its per-base coverage (with `none` for missing coverage), whether its source
file is readable, its clip threshold and its summary statistic
(`basenji_data_read.py` is not among the supplied sources). -/
structure Track where
  len : ℕ
  cov : ℕ → Option ℚ
  readable : Bool
  clip : ℚ
  sumStat : SumStat

/-- Modelled from the spec: stream the per-base coverage of a track over the
window `[s, e)`.  Missing coverage reads as zero; an unreadable source or a
coordinate beyond the addressable range is a `TrackReadError`. -/
def readWindow (t : Track) (s e : ℕ) : Except TrackReadError (List ℚ) :=
  if t.readable = false then .error .unreadable
  else if t.len < e then .error .outOfRange
  else .ok ((List.range (e - s)).map (fun i => (t.cov (s + i)).getD 0))

/-- Clip one per-base value to the threshold `c`: values above `c` are
truncated to `c`, not discarded. -/
def clipValue (c v : ℚ) : ℚ := min v c

/-- Aggregate one bin of per-base values with a summary statistic. -/
def binStat : SumStat → List ℚ → ℚ
  | .sum, bin => bin.sum
  | .mean, bin => bin.sum / bin.length

/-- Pool a list of per-base values into bins of width `w`, one aggregate
value per bin. -/
def poolVals (stat : SumStat) (w : ℕ) (vals : List ℚ) : List ℚ :=
  (List.range (vals.length / w)).map
    (fun b => binStat stat ((vals.drop (b * w)).take w))

/-- Modelled from the spec: the Coverage Aggregator's work for one Track and
one Window — read the per-base values, clip each one to the track's
threshold, then pool into bins of width `w` with the track's summary
statistic. -/
def aggregateTrackWindow (t : Track) (w : ℕ) (win : ℕ × ℕ) :
    Except TrackReadError (List ℚ) :=
  (readWindow t win.1 win.2).map
    (fun vals => poolVals t.sumStat w (vals.map (clipValue t.clip)))

/-- Modelled from the spec: one track's aggregation over the full window
set; the first read failure fails that track. -/
def aggregateTrack (t : Track) (w : ℕ) :
    List (ℕ × ℕ) → Except TrackReadError (List (List ℚ))
  | [] => .ok []
  | win :: rest =>
      match aggregateTrackWindow t w win with
      | .error e => .error e
      | .ok ps =>
          match aggregateTrack t w rest with
          | .error e => .error e
          | .ok pss => .ok (ps :: pss)

/-- Final status of one track's aggregation. -/
inductive TrackStatus
  | done
  | failed
deriving DecidableEq, Repr

/-- The pipeline states of the spec's state machine. -/
inductive PipelineState
  | configured
  | windowed
  | split
  | aggregated
  | written
  | done
deriving DecidableEq, Repr

/-- The status one track ends in: `done` when its aggregation succeeds,
`failed` on a `TrackReadError`. -/
def trackStatus (t : Track) (w : ℕ) (wins : List (ℕ × ℕ)) : TrackStatus :=
  match aggregateTrack t w wins with
  | .ok _ => .done
  | .error _ => .failed

/-- Modelled from the spec: the pipeline runs every track's aggregation
independently, marks failing tracks `FAILED` without blocking the others,
and reaches the terminal state under the partial-success policy. -/
def runPipeline (tracks : List Track) (w : ℕ) (wins : List (ℕ × ℕ)) :
    PipelineState × List TrackStatus :=
  (.done, tracks.map (fun t => trackStatus t w wins))

/-! ## Record Writer -/

/-- Modelled from the spec: the Record Writer's fixed-width categorical
encoding over the alphabet A, C, G, T, N — category 4 is the designated
"unknown" category, shared by N and by every symbol outside the alphabet
(`basenji_data_write.py` is not among the supplied sources). -/
def encodeBase (c : Char) : ℕ :=
  if c = 'A' then 0
  else if c = 'C' then 1
  else if c = 'G' then 2
  else if c = 'T' then 3
  else 4

/-- Decode one category back to a base call; the unknown category decodes
to N. -/
def decodeBase (n : ℕ) : Char :=
  if n = 0 then 'A'
  else if n = 1 then 'C'
  else if n = 2 then 'G'
  else if n = 3 then 'T'
  else 'N'

/-- Whether a symbol belongs to the accepted alphabet A, C, G, T, N. -/
def knownBase (c : Char) : Bool :=
  c = 'A' || c = 'C' || c = 'G' || c = 'T' || c = 'N'

/-- The base call a symbol comes back as after an encode/decode round trip:
resolvable bases survive, everything else lands on the unknown category N. -/
def normalizeBase (c : Char) : Char :=
  if c = 'A' || c = 'C' || c = 'G' || c = 'T' then c else 'N'

/-- Encoding failure in strict mode. -/
inductive EncodingError
  | unknownSymbol
deriving DecidableEq, Repr

/-- Encode a nucleotide sequence. -/
def encodeSeq (s : List Char) : List ℕ := s.map encodeBase

/-- Decode an encoded sequence back to base calls. -/
def decodeSeq (ns : List ℕ) : List Char := ns.map decodeBase

/-- Modelled from the spec: strict-mode encoding — any symbol outside the
accepted alphabet fails with `EncodingError` instead of mapping to the
unknown category. -/
def encodeSeqStrict (s : List Char) : Except EncodingError (List ℕ) :=
  if s.all knownBase then .ok (encodeSeq s) else .error .unknownSymbol

/-- Modelled from the spec: the orchestrator chops a split's window-index
range `[start, start + count)` into consecutive shard ranges of at most
`shardSize` windows each, handed to independent Record Writer workers
(`basenji_data.py`'s shard layout is not among the supplied sources; the
notebook shows the resulting `-s`/`-e` ranges). -/
def makeShardRanges (start count shardSize : ℕ) : List (ℕ × ℕ) :=
  if h : shardSize = 0 ∨ count = 0 then []
  else if count ≤ shardSize then [(start, start + count)]
  else (start, start + shardSize) ::
    makeShardRanges (start + shardSize) (count - shardSize) shardSize
termination_by count
decreasing_by
  simp_wf
  omega

/-- The number of sequences the Record Writer serializes for the shard
range `r`: one per window index in `[r.1, r.2)`. -/
def shardSeqCount (r : ℕ × ℕ) : ℕ := r.2 - r.1

/-! ## Theorems -/

/-- C2: for every Track and every Window whose length `e - s` is a multiple
of the pool width `w`, the PooledSignal produced by the Coverage Aggregator
has exactly `(e - s) / w` entries. -/
theorem pooledSignal_length_eq (t : Track) (w s e : ℕ) (ps : List ℚ)
    (hok : aggregateTrackWindow t w (s, e) = .ok ps) (_hdvd : w ∣ (e - s)) :
    ps.length = (e - s) / w := by
  unfold aggregateTrackWindow readWindow at hok
  by_cases hr : t.readable = false
  · simp [hr, Except.map] at hok
  · by_cases hl : t.len < e
    · simp [hr, hl, Except.map] at hok
    · simp [hr, hl, Except.map] at hok
      rw [← hok]
      simp [poolVals]

/-- Witness for C2 at the notebook's parameters scaled down: a readable
track over an 8-base window pooled by width 2 yields 4 bins. -/
theorem pooledSignal_length_witness :
    aggregateTrackWindow ⟨8, fun _ => some 1, true, 384, .sum⟩ 2 (0, 8) =
      .ok [2, 2, 2, 2] ∧ (2 ∣ (8 - 0)) ∧ ([2, 2, 2, 2] : List ℚ).length = (8 - 0) / 2 := by
  have hok : aggregateTrackWindow ⟨8, fun _ => some 1, true, 384, .sum⟩ 2 (0, 8) =
      .ok [2, 2, 2, 2] := by
    norm_num [aggregateTrackWindow, readWindow, poolVals, clipValue, binStat,
      Except.map, List.range_succ]
  exact ⟨hok, by norm_num, pooledSignal_length_eq _ 2 0 8 _ hok (by norm_num)⟩

/-- C6: the Split Assigner is deterministic — two runs on identical inputs
produce identical split labels for every contig; no randomization enters
the computation. -/
theorem splitAssigner_deterministic (r1 r2 : ℕ) (fv ft : ℚ) (sizes : List ℚ) :
    runSplitAssigner r1 fv ft sizes = runSplitAssigner r2 fv ft sizes := rfl

/-- C7: encoding a sequence with the Record Writer's fixed-width categorical
encoding and decoding it back yields the original base calls, except that
every symbol outside the accepted alphabet lands consistently on the
designated unknown category N; strict-mode encoding succeeds exactly when
every symbol is in the accepted alphabet. -/
theorem encode_decode_roundtrip (s : List Char) :
    decodeSeq (encodeSeq s) = s.map normalizeBase ∧
    (encodeSeqStrict s = .ok (encodeSeq s) ↔ ∀ c ∈ s, knownBase c = true) := by
  constructor
  · unfold decodeSeq encodeSeq
    rw [List.map_map]
    apply List.map_congr_left
    intro c _
    simp only [Function.comp_apply, encodeBase, decodeBase, normalizeBase]
    split_ifs <;> simp_all
  · unfold encodeSeqStrict
    split_ifs with h
    · simp only [List.all_eq_true] at h
      exact iff_of_true rfl h
    · simp only [List.all_eq_true, not_forall] at h
      simp only [reduceCtorEq, false_iff, not_forall]
      obtain ⟨c, hc, hnc⟩ := h
      exact ⟨c, hc, by simpa using hnc⟩

/-- C9: the Genome Windower fails with `ConfigError` exactly when the window
length or the stride is nonpositive, and in that case it produces no
windows; with valid parameters it produces the window list. -/
theorem genomeWindower_configError_iff (G : ℕ) (mask : List (ℕ × ℕ))
    (L stride : ℤ) (dn dd : ℕ) :
    (genomeWindower G mask L stride dn dd = .error .invalidParams ↔
      L ≤ 0 ∨ stride ≤ 0) ∧
    (¬(L ≤ 0 ∨ stride ≤ 0) ↔ genomeWindower G mask L stride dn dd =
      .ok (windowerWindows G mask L.toNat stride.toNat dn dd)) := by
  unfold genomeWindower
  by_cases h : L ≤ 0 ∨ stride ≤ 0 <;> simp [h]

/-- The head of a nonempty shard-range list starts at `start` and spans at
most `shardSize`. -/
theorem makeShardRanges_head_eq (start count ss : ℕ) :
    (makeShardRanges start count ss).head? =
      if ss = 0 ∨ count = 0 then none else some (start, start + min count ss) := by
  rw [makeShardRanges]
  split_ifs with h1 h2
  · simp [h1]
  · have : min count ss = count := Nat.min_eq_left h2
    simp [h1, this]
  · have : min count ss = ss := Nat.min_eq_right (by omega)
    simp [h1, this]

/-- Every shard range lies inside `[start, start + count)` and is nonempty. -/
theorem makeShardRanges_mem_bounds (count : ℕ) : ∀ start ss,
    ∀ r ∈ makeShardRanges start count ss,
      start ≤ r.1 ∧ r.1 < r.2 ∧ r.2 ≤ start + count := by
  induction count using Nat.strong_induction_on with
  | _ count ih =>
    intro start ss r hr
    rw [makeShardRanges] at hr
    split_ifs at hr with h1 h2
    · simp at hr
    · simp at hr
      subst hr
      refine ⟨le_refl _, ?_, le_refl _⟩
      simp only [not_or] at h1
      omega
    · rcases List.mem_cons.mp hr with h | h
      · subst h
        simp only [not_or] at h1
        refine ⟨le_refl _, by omega, by omega⟩
      · have hb := ih (count - ss) (by omega) (start + ss) ss r h
        refine ⟨by omega, hb.2.1, by omega⟩

/-- Consecutive shard ranges abut: each range's end is the next's start. -/
theorem makeShardRanges_chain (count : ℕ) : ∀ start ss,
    List.Chain' (fun a b => a.2 = b.1) (makeShardRanges start count ss) := by
  induction count using Nat.strong_induction_on with
  | _ count ih =>
    intro start ss
    rw [makeShardRanges]
    split_ifs with h1 h2
    · simp
    · simp
    · refine List.chain'_cons'.mpr ⟨?_, ih (count - ss) (by omega) (start + ss) ss⟩
      intro y hy
      rw [makeShardRanges_head_eq] at hy
      have hcond : ¬(ss = 0 ∨ count - ss = 0) := by omega
      simp only [hcond, if_false, Option.mem_def, Option.some.injEq] at hy
      rw [← hy]

/-- C10: within a split, the shard ranges are contiguous (each end equals
the next start) and pairwise disjoint half-open intervals, every shard
spans at most `shardSize` window indices, and every non-final shard
serializes exactly `shardSize` sequences. -/
theorem shardRanges_partition (start count ss : ℕ) :
    List.Chain' (fun a b => a.2 = b.1) (makeShardRanges start count ss) ∧
    List.Pairwise (fun a b => a.2 ≤ b.1) (makeShardRanges start count ss) ∧
    (∀ r ∈ makeShardRanges start count ss, shardSeqCount r ≤ ss) ∧
    (∀ r ∈ (makeShardRanges start count ss).dropLast, shardSeqCount r = ss) := by
  refine ⟨makeShardRanges_chain count start ss, ?_, ?_, ?_⟩
  · induction count using Nat.strong_induction_on generalizing start with
    | _ count ih =>
      rw [makeShardRanges]
      split_ifs with h1 h2
      · simp
      · simp
      · refine List.pairwise_cons.mpr ⟨?_, ih (count - ss) (by omega) (start + ss)⟩
        intro r hr
        exact (makeShardRanges_mem_bounds (count - ss) (start + ss) ss r hr).1
  · induction count using Nat.strong_induction_on generalizing start with
    | _ count ih =>
      intro r hr
      rw [makeShardRanges] at hr
      split_ifs at hr with h1 h2
      · simp at hr
      · simp at hr
        subst hr
        simp only [shardSeqCount]
        omega
      · rcases List.mem_cons.mp hr with h | h
        · subst h
          simp [shardSeqCount]
        · exact ih (count - ss) (by omega) (start + ss) r h
  · induction count using Nat.strong_induction_on generalizing start with
    | _ count ih =>
      intro r hr
      rw [makeShardRanges] at hr
      split_ifs at hr with h1 h2
      · simp at hr
      · simp at hr
      · have hne : makeShardRanges (start + ss) (count - ss) ss ≠ [] := by
          intro hnil
          have hh := makeShardRanges_head_eq (start + ss) (count - ss) ss
          rw [hnil] at hh
          have hcond : ¬(ss = 0 ∨ count - ss = 0) := by omega
          simp [hcond] at hh
        rw [List.dropLast_cons_of_ne_nil hne] at hr
        rcases List.mem_cons.mp hr with h | h
        · subst h
          simp [shardSeqCount]
        · exact ih (count - ss) (by omega) (start + ss) r h

/-- The shard ranges the model computes for the notebook's validation split
(offset 4, 573 sequences, shard size 256) match the `-s`/`-e` pairs logged
by `basenji_data.py`: `[4, 260)`, `[260, 516)`, `[516, 577)`. -/
theorem makeShardRanges_notebook_example :
    makeShardRanges 4 573 256 = [(4, 260), (260, 516), (516, 577)] := by
  rw [makeShardRanges]
  norm_num
  rw [makeShardRanges]
  norm_num
  rw [makeShardRanges]
  norm_num

/-- A down-sample fraction of one keeps every candidate window. -/
theorem downsampleWindows_one (ws : List (ℕ × ℕ)) :
    downsampleWindows 1 1 ws = ws := by
  unfold downsampleWindows
  rw [List.filter_eq_self.mpr]
  · simp
  · intro p _
    simp [keepWindow]

/-- Down-sampling only ever removes candidate windows. -/
theorem downsampleWindows_sublist (dn dd : ℕ) (ws : List (ℕ × ℕ)) :
    (downsampleWindows dn dd ws).Sublist ws := by
  unfold downsampleWindows
  have h := (List.filter_sublist (l := ws.enum)
    (p := fun p => keepWindow dn dd p.1)).map Prod.snd
  simpa using h

/-- With stride equal to the window length, a contig of length `clen` holds
exactly `clen / L` windows. -/
theorem numWindows_stride_self (clen L : ℕ) (hL : 0 < L) :
    numWindows clen L L = clen / L := by
  unfold numWindows
  split_ifs with h
  · exact (Nat.div_eq_of_lt h).symm
  · exact (Nat.div_eq_sub_div hL (le_of_not_lt h)).symm

/-- C4: for a single mappable contig of length `N`, window length `L`,
stride `L` and down-sample fraction one, the Genome Windower yields exactly
`⌊N / L⌋` pairwise non-overlapping windows; a contig shorter than one
window yields none. -/
theorem windower_counts_floor (N L : ℕ) (hL : 0 < L) :
    (windowerWindows N [] L L 1 1).length = N / L ∧
    List.Pairwise (fun a b => a.2 ≤ b.1) (windowerWindows N [] L L 1 1) ∧
    (N < L → windowerWindows N [] L L 1 1 = []) := by
  have hw : windowerWindows N [] L L 1 1 = contigWindows 0 N L L := by
    unfold windowerWindows
    rw [downsampleWindows_one]
    by_cases hN : 0 < N
    · simp [contigsOfMask, contigGaps, hN]
    · have hN0 : N = 0 := by omega
      subst hN0
      simp [contigsOfMask, contigGaps, contigWindows, numWindows, hL]
  rw [hw]
  refine ⟨?_, ?_, ?_⟩
  · simp [contigWindows, numWindows_stride_self _ _ hL]
  · unfold contigWindows
    rw [List.pairwise_map]
    apply (List.pairwise_lt_range _).imp
    intro i j hij
    simp only
    have h1 : i * L + L = (i + 1) * L := by ring
    have h2 : (i + 1) * L ≤ j * L := Nat.mul_le_mul_right L hij
    omega
  · intro hNL
    simp [contigWindows, numWindows, hNL]

/-- Witness for C4 at the notebook's parameters: a 1,000,000 bp contig with
131,072 bp windows yields exactly 7 windows. -/
theorem windower_counts_floor_witness :
    (0:ℕ) < 131072 ∧
    (windowerWindows 1000000 [] 131072 131072 1 1).length = 1000000 / 131072 ∧
    1000000 / 131072 = 7 :=
  ⟨by norm_num, (windower_counts_floor 1000000 131072 (by norm_num)).1, by norm_num⟩

/-- In a sorted disjoint interval list, every interval starts at or after a
bound that precedes the head. -/
theorem mask_sorted_all (e : ℕ) (mask : List (ℕ × ℕ))
    (hm1 : ∀ m ∈ mask, m.1 ≤ m.2)
    (hm2 : List.Chain' (fun a b => a.2 ≤ b.1) mask)
    (hhead : ∀ y ∈ mask.head?, e ≤ y.1) :
    ∀ m ∈ mask, e ≤ m.1 := by
  induction mask generalizing e with
  | nil => simp
  | cons hd tl ih =>
    intro m hm
    have hhd : e ≤ hd.1 := hhead hd rfl
    rcases List.mem_cons.mp hm with h | h
    · rw [h]
      exact hhd
    · have hch := List.chain'_cons'.mp hm2
      have htl : hd.2 ≤ m.1 :=
        ih hd.2 (fun m' hm' => hm1 m' (List.mem_cons_of_mem _ hm')) hch.2 hch.1 m h
      have := hm1 hd (List.mem_cons_self _ _)
      omega

/-- Every contig gap starts at or after the running position and is
disjoint from every interval of the sorted mask. -/
theorem contigGaps_disjoint_mask (mask : List (ℕ × ℕ)) : ∀ (G pos : ℕ),
    (∀ m ∈ mask, m.1 ≤ m.2) →
    List.Chain' (fun a b => a.2 ≤ b.1) mask →
    ∀ g ∈ contigGaps G pos mask,
      pos ≤ g.1 ∧ g.1 < g.2 ∧ ∀ m ∈ mask, g.2 ≤ m.1 ∨ m.2 ≤ g.1 := by
  induction mask with
  | nil =>
    intro G pos _ _ g hg
    unfold contigGaps at hg
    split_ifs at hg with h
    · simp at hg
      rw [hg]
      exact ⟨le_refl _, h, by simp⟩
    · simp at hg
  | cons hd tl ih =>
    intro G pos hm1 hm2 g hg
    obtain ⟨s, e⟩ := hd
    have hse : s ≤ e := hm1 (s, e) (List.mem_cons_self _ _)
    have hch := List.chain'_cons'.mp hm2
    have hm1' : ∀ m ∈ tl, m.1 ≤ m.2 := fun m hm => hm1 m (List.mem_cons_of_mem _ hm)
    have htl_ge : ∀ m ∈ tl, e ≤ m.1 := mask_sorted_all e tl hm1' hch.2 hch.1
    unfold contigGaps at hg
    rcases List.mem_append.mp hg with h | h
    · split_ifs at h with hps
      · simp at h
        rw [h]
        refine ⟨le_refl _, hps, ?_⟩
        intro m hm
        rcases List.mem_cons.mp hm with h' | h'
        · left
          simp [h']
        · left
          have := htl_ge m h'
          show s ≤ m.1
          omega
      · simp at h
    · have hrec := ih G (max pos e) hm1' hch.2 g h
      refine ⟨le_trans (le_max_left _ _) hrec.1, hrec.2.1, ?_⟩
      intro m hm
      rcases List.mem_cons.mp hm with h' | h'
      · right
        rw [h']
        exact le_trans (le_max_right _ _) hrec.1
      · exact hrec.2.2 m h'

/-- Every window of a contig is sized exactly to the window length and lies
inside the contig. -/
theorem contigWindows_subset (cs ce L stride : ℕ) (hcs : cs ≤ ce) :
    ∀ w ∈ contigWindows cs ce L stride,
      cs ≤ w.1 ∧ w.2 = w.1 + L ∧ w.2 ≤ ce := by
  intro w hw
  simp only [contigWindows, List.mem_map, List.mem_range] at hw
  obtain ⟨i, hi, rfl⟩ := hw
  refine ⟨by omega, rfl, ?_⟩
  unfold numWindows at hi
  split_ifs at hi with h
  · omega
  · have h2 : i ≤ (ce - cs - L) / stride := by omega
    have h3 : i * stride ≤ ce - cs - L := by
      calc i * stride ≤ ((ce - cs - L) / stride) * stride :=
            Nat.mul_le_mul_right _ h2
        _ ≤ ce - cs - L := Nat.div_mul_le_self _ _
    simp only
    generalize hj : i * stride = j at h3 ⊢
    omega

/-- C5: every Window the Genome Windower produces over a sorted disjoint
unmappable mask is sized exactly to the window length and contains no base
of any masked interval. -/
theorem windows_avoid_unmappable_mask (G : ℕ) (mask : List (ℕ × ℕ))
    (L stride dn dd : ℕ)
    (hm1 : ∀ m ∈ mask, m.1 ≤ m.2)
    (hm2 : List.Chain' (fun a b => a.2 ≤ b.1) mask)
    (w : ℕ × ℕ) (hw : w ∈ windowerWindows G mask L stride dn dd) :
    w.2 = w.1 + L ∧
    ∀ m ∈ mask, ∀ b, w.1 ≤ b → b < w.2 → ¬(m.1 ≤ b ∧ b < m.2) := by
  have hsub : w ∈ (contigsOfMask G mask).flatMap
      (fun c => contigWindows c.1 c.2 L stride) :=
    (downsampleWindows_sublist dn dd _).subset hw
  rw [List.mem_flatMap] at hsub
  obtain ⟨c, hc, hwc⟩ := hsub
  have hg := contigGaps_disjoint_mask mask G 0 hm1 hm2 c hc
  have hwin := contigWindows_subset c.1 c.2 L stride (le_of_lt hg.2.1) w hwc
  refine ⟨hwin.2.1, ?_⟩
  intro m hm b hb1 hb2 hbad
  rcases hg.2.2 m hm with h | h
  · have hwc2 : w.2 ≤ c.2 := hwin.2.2
    omega
  · have hwc1 : c.1 ≤ w.1 := hwin.1
    omega

/-- Witness for C5: genome length 20, mask interval `[5, 8)`, window length
and stride 3 — the produced window `[8, 11)` is sized to 3 and the masked
base 8 test point is excluded. -/
theorem windows_avoid_unmappable_mask_witness :
    ((8, 11) ∈ windowerWindows 20 [(5, 8)] 3 3 1 1) ∧
    ((8, 11) : ℕ × ℕ).2 = ((8, 11) : ℕ × ℕ).1 + 3 ∧
    ¬((5:ℕ) ≤ 8 ∧ (8:ℕ) < 8) := by
  have hw : ((8, 11) : ℕ × ℕ) ∈ windowerWindows 20 [(5, 8)] 3 3 1 1 := by decide
  have h := windows_avoid_unmappable_mask 20 [(5, 8)] 3 3 1 1
    (by decide) (by simp) (8, 11) hw
  exact ⟨hw, h.1, h.2 (5, 8) (by decide) 8 (by decide) (by decide)⟩

/-- Sum-pooling a list whose length is a whole number of bins preserves the
total. -/
theorem sum_poolVals (w : ℕ) (hw : 0 < w) : ∀ (n : ℕ) (xs : List ℚ),
    xs.length = w * n → (poolVals .sum w xs).sum = xs.sum := by
  intro n
  induction n with
  | zero =>
    intro xs hxs
    have hnil : xs = [] := List.length_eq_zero.mp (by omega)
    subst hnil
    simp [poolVals]
  | succ n ih =>
    intro xs hxs
    have hdiv : xs.length / w = n + 1 := by
      rw [hxs]
      exact Nat.mul_div_cancel_left _ hw
    have hdroplen : (xs.drop w).length = w * n := by
      rw [List.length_drop, hxs]
      have h1 : w * (n + 1) = w * n + w := by ring
      omega
    have hdropdiv : (xs.drop w).length / w = n := by
      rw [hdroplen]
      exact Nat.mul_div_cancel_left _ hw
    have ihx : (poolVals .sum w (xs.drop w)).sum = (xs.drop w).sum :=
      ih (xs.drop w) hdroplen
    unfold poolVals at ihx ⊢
    rw [hdiv, List.range_succ_eq_map]
    simp only [List.map_cons, List.sum_cons, List.map_map]
    rw [hdropdiv] at ihx
    have hshift : ∀ b ∈ List.range n,
        (binStat .sum ((xs.drop ((b + 1) * w)).take w)) =
          (binStat .sum (((xs.drop w).drop (b * w)).take w)) := by
      intro b _
      rw [List.drop_drop]
      have harg : (b + 1) * w = w + b * w := by ring
      rw [harg]
    have hmap : List.map
        ((fun b => binStat .sum ((xs.drop (b * w)).take w)) ∘ (· + 1))
        (List.range n) =
        List.map (fun b => binStat .sum (((xs.drop w).drop (b * w)).take w))
        (List.range n) := by
      apply List.map_congr_left
      intro b hb
      exact hshift b hb
    rw [hmap, ihx]
    rw [← List.sum_take_add_sum_drop xs w]
    simp [binStat]

/-- C3: the Coverage Aggregator clips per-base values to the track's
threshold before pooling, each bin's pooled value being the sum of its
clipped per-base values; when no per-base value exceeds the threshold the
pooled total equals the raw window total, so clipping never applies to the
pooled bin sum. -/
theorem clip_per_base_sum_pooling (t : Track) (w s e : ℕ) (vals ps : List ℚ)
    (hstat : t.sumStat = .sum) (hw : 0 < w)
    (hread : readWindow t s e = .ok vals)
    (hok : aggregateTrackWindow t w (s, e) = .ok ps)
    (hdvd : w ∣ (e - s))
    (hle : ∀ v ∈ vals, v ≤ t.clip) :
    ps = poolVals .sum w (List.map (clipValue t.clip) vals) ∧
    ps.sum = vals.sum := by
  have hps : ps = poolVals t.sumStat w (List.map (clipValue t.clip) vals) := by
    unfold aggregateTrackWindow at hok
    rw [hread] at hok
    simp [Except.map] at hok
    exact hok.symm
  have hclipid : List.map (clipValue t.clip) vals = vals := by
    have h : ∀ v ∈ vals, clipValue t.clip v = id v :=
      fun v hv => min_eq_left (hle v hv)
    rw [List.map_congr_left h, List.map_id]
  have hlen : vals.length = e - s := by
    unfold readWindow at hread
    split_ifs at hread with h1 h2
    rw [Except.ok.injEq] at hread
    rw [← hread, List.length_map, List.length_range]
  obtain ⟨n, hn⟩ := hdvd
  refine ⟨by rw [hps, hstat], ?_⟩
  rw [hps, hstat, hclipid]
  exact sum_poolVals w hw n vals (by omega)

/-- Witness for C3 at the spec's concrete scenario: clip 384, summary
statistic sum, a 2-base window whose values 300 and 200 each stay below the
clip but sum to 500 — the pooled signal is 500, not clipped to 384. -/
theorem clip_per_base_sum_pooling_witness :
    readWindow ⟨2, fun n => if n = 0 then some 300 else some 200, true, 384, .sum⟩
      0 2 = .ok [300, 200] ∧
    aggregateTrackWindow
      ⟨2, fun n => if n = 0 then some 300 else some 200, true, 384, .sum⟩
      2 (0, 2) = .ok [500] ∧
    (∀ v ∈ ([300, 200] : List ℚ), v ≤ 384) ∧
    ([500] : List ℚ).sum = ([300, 200] : List ℚ).sum := by
  have hread : readWindow
      ⟨2, fun n => if n = 0 then some 300 else some 200, true, 384, .sum⟩
      0 2 = .ok [300, 200] := by
    norm_num [readWindow, List.range_succ]
  have hok : aggregateTrackWindow
      ⟨2, fun n => if n = 0 then some 300 else some 200, true, 384, .sum⟩
      2 (0, 2) = .ok [500] := by
    norm_num [aggregateTrackWindow, readWindow, poolVals, clipValue, binStat,
      Except.map, List.range_succ, min_def]
  have hle : ∀ v ∈ ([300, 200] : List ℚ), v ≤ 384 := by
    intro v hv
    simp at hv
    rcases hv with h | h <;> rw [h] <;> norm_num
  refine ⟨hread, hok, hle, ?_⟩
  have h := clip_per_base_sum_pooling
    ⟨2, fun n => if n = 0 then some 300 else some 200, true, 384, .sum⟩
    2 0 2 [300, 200] [500] rfl (by norm_num) hread hok (by norm_num) hle
  simpa using h.2

/-- C8: when one track's aggregation fails with a `TrackReadError`, the
pipeline marks exactly that track `FAILED`, every other track's status is
what its independent aggregation yields, and the pipeline still reaches its
terminal state under the partial-success policy. -/
theorem trackReadError_isolation (tracks : List Track) (w : ℕ)
    (wins : List (ℕ × ℕ)) (i : ℕ) (err : TrackReadError)
    (hfail : (tracks[i]?).map (fun t => aggregateTrack t w wins) =
      some (.error err)) :
    (runPipeline tracks w wins).1 = PipelineState.done ∧
    (runPipeline tracks w wins).2[i]? = some .failed ∧
    ∀ j, j ≠ i → (runPipeline tracks w wins).2[j]? =
      (tracks[j]?).map (fun t => trackStatus t w wins) := by
  refine ⟨rfl, ?_, ?_⟩
  · obtain ⟨t, ht⟩ : ∃ t, tracks[i]? = some t := by
      cases h : tracks[i]? with
      | none => rw [h] at hfail; simp at hfail
      | some t => exact ⟨t, rfl⟩
    rw [ht] at hfail
    simp only [Option.map_some', Option.some.injEq] at hfail
    show (tracks.map (fun t => trackStatus t w wins))[i]? = some .failed
    rw [List.getElem?_map, ht]
    simp [trackStatus, hfail]
  · intro j _
    show (tracks.map (fun t => trackStatus t w wins))[j]? = _
    rw [List.getElem?_map]

/-- Witness for C8: of two single-window tracks, the first has an
unreadable source; the pipeline marks it failed, leaves the second to its
own (successful) status, and terminates. -/
theorem trackReadError_isolation_witness :
    (([⟨1, fun _ => some 1, false, 1, .sum⟩,
       ⟨1, fun _ => some 1, true, 1, .sum⟩] : List Track)[0]?).map
        (fun t => aggregateTrack t 1 [(0, 1)]) =
      some (.error .unreadable) ∧
    (runPipeline [⟨1, fun _ => some 1, false, 1, .sum⟩,
      ⟨1, fun _ => some 1, true, 1, .sum⟩] 1 [(0, 1)]).1 = PipelineState.done ∧
    (runPipeline [⟨1, fun _ => some 1, false, 1, .sum⟩,
      ⟨1, fun _ => some 1, true, 1, .sum⟩] 1 [(0, 1)]).2[0]? = some .failed ∧
    (runPipeline [⟨1, fun _ => some 1, false, 1, .sum⟩,
      ⟨1, fun _ => some 1, true, 1, .sum⟩] 1 [(0, 1)]).2[1]? =
      (([⟨1, fun _ => some 1, false, 1, .sum⟩,
         ⟨1, fun _ => some 1, true, 1, .sum⟩] : List Track)[1]?).map
        (fun t => trackStatus t 1 [(0, 1)]) := by
  have hfail : (([⟨1, fun _ => some 1, false, 1, .sum⟩,
       ⟨1, fun _ => some 1, true, 1, .sum⟩] : List Track)[0]?).map
        (fun t => aggregateTrack t 1 [(0, 1)]) =
      some (.error .unreadable) := by
    simp [aggregateTrack, aggregateTrackWindow, readWindow, Except.map]
  have h := trackReadError_isolation
    [⟨1, fun _ => some 1, false, 1, .sum⟩, ⟨1, fun _ => some 1, true, 1, .sum⟩]
    1 [(0, 1)] 0 .unreadable hfail
  exact ⟨hfail, h.1, h.2.1, h.2.2 1 (by norm_num)⟩

/-- Every split's target fraction is nonnegative when the requested
fractions are valid. -/
theorem targetFrac_nonneg (fv ft : ℚ) (hfv : 0 ≤ fv) (hft : 0 ≤ ft)
    (hsum : fv + ft ≤ 1) (s : Split) : 0 ≤ targetFrac fv ft s := by
  cases s <;> simp [targetFrac] <;> linarith

/-- Every split's target fraction is at most one when the requested
fractions are valid. -/
theorem targetFrac_le_one (fv ft : ℚ) (hfv : 0 ≤ fv) (hft : 0 ≤ ft)
    (hsum : fv + ft ≤ 1) (s : Split) : targetFrac fv ft s ≤ 1 := by
  cases s <;> simp [targetFrac] <;> linarith

/-- The three deficits always sum to zero: target fractions sum to one and
the running totals sum to the assigned total. -/
theorem deficit_sum (fv ft : ℚ) (a : SplitTotals) :
    deficit fv ft a .train + deficit fv ft a .valid + deficit fv ft a .test = 0 := by
  simp only [deficit, targetFrac, SplitTotals.total, SplitTotals.get]
  ring

/-- The chosen split's deficit is maximal among the three. -/
theorem chooseSplit_max (fv ft : ℚ) (a : SplitTotals) (s : Split) :
    deficit fv ft a s ≤ deficit fv ft a (chooseSplit fv ft a) := by
  unfold chooseSplit
  cases s <;> split_ifs <;> first | exact le_refl _ | linarith

/-- The chosen split's deficit is nonnegative: it is the maximum of three
quantities summing to zero. -/
theorem chooseSplit_deficit_nonneg (fv ft : ℚ) (a : SplitTotals) :
    0 ≤ deficit fv ft a (chooseSplit fv ft a) := by
  have hsum := deficit_sum fv ft a
  have h1 := chooseSplit_max fv ft a .train
  have h2 := chooseSplit_max fv ft a .valid
  have h3 := chooseSplit_max fv ft a .test
  linarith

/-- Adding a contig to a split grows the assigned total by the contig. -/
theorem addTo_total (a : SplitTotals) (s : Split) (c : ℚ) :
    (addTo a s c).total = a.total + c := by
  cases s <;> simp [addTo, SplitTotals.total] <;> ring

/-- Adding a contig to a split grows that split's running total. -/
theorem addTo_get_self (a : SplitTotals) (s : Split) (c : ℚ) :
    (addTo a s c).get s = a.get s + c := by
  cases s <;> simp [addTo, SplitTotals.get]

/-- Adding a contig to a split leaves the other splits' totals unchanged. -/
theorem addTo_get_other (a : SplitTotals) (s s' : Split) (c : ℚ)
    (h : s' ≠ s) : (addTo a s c).get s' = a.get s' := by
  cases s <;> cases s' <;> simp_all [addTo, SplitTotals.get]

/-- One assignment step preserves the invariant that no split exceeds its
target share by more than `(1 - targetFrac) * C`, where `C` bounds every
contig size. -/
theorem assignStep_inv (fv ft C : ℚ) (hfv : 0 ≤ fv) (hft : 0 ≤ ft)
    (hsum : fv + ft ≤ 1) (a : SplitTotals) (c : ℚ) (hc0 : 0 ≤ c) (hcC : c ≤ C)
    (hinv : ∀ s, a.get s - targetFrac fv ft s * a.total ≤
      (1 - targetFrac fv ft s) * C) :
    ∀ s, (assignStep fv ft a c).get s -
      targetFrac fv ft s * (assignStep fv ft a c).total ≤
      (1 - targetFrac fv ft s) * C := by
  intro s
  unfold assignStep
  rw [addTo_total]
  by_cases hs : s = chooseSplit fv ft a
  · rw [hs, addTo_get_self]
    have hd := chooseSplit_deficit_nonneg fv ft a
    unfold deficit at hd
    have ht1 : targetFrac fv ft (chooseSplit fv ft a) ≤ 1 :=
      targetFrac_le_one fv ft hfv hft hsum _
    have hmul : (1 - targetFrac fv ft (chooseSplit fv ft a)) * c ≤
        (1 - targetFrac fv ft (chooseSplit fv ft a)) * C :=
      mul_le_mul_of_nonneg_left hcC (by linarith)
    have e1 : targetFrac fv ft (chooseSplit fv ft a) * (a.total + c) =
        targetFrac fv ft (chooseSplit fv ft a) * a.total +
        targetFrac fv ft (chooseSplit fv ft a) * c := by ring
    have e2 : (1 - targetFrac fv ft (chooseSplit fv ft a)) * c =
        c - targetFrac fv ft (chooseSplit fv ft a) * c := by ring
    rw [e1]
    linarith
  · rw [addTo_get_other _ _ _ _ hs]
    have h := hinv s
    have htc : 0 ≤ targetFrac fv ft s * c :=
      mul_nonneg (targetFrac_nonneg fv ft hfv hft hsum s) hc0
    have e1 : targetFrac fv ft s * (a.total + c) =
        targetFrac fv ft s * a.total + targetFrac fv ft s * c := by ring
    rw [e1]
    linarith

/-- The invariant holds after folding the assignment step over any contig
list whose sizes are bounded by `C`. -/
theorem assign_fold_inv (fv ft C : ℚ) (hfv : 0 ≤ fv) (hft : 0 ≤ ft)
    (hsum : fv + ft ≤ 1) :
    ∀ (sizes : List ℚ) (a : SplitTotals),
    (∀ c ∈ sizes, 0 ≤ c ∧ c ≤ C) →
    (∀ s, a.get s - targetFrac fv ft s * a.total ≤
      (1 - targetFrac fv ft s) * C) →
    ∀ s, (sizes.foldl (assignStep fv ft) a).get s -
      targetFrac fv ft s * (sizes.foldl (assignStep fv ft) a).total ≤
      (1 - targetFrac fv ft s) * C := by
  intro sizes
  induction sizes with
  | nil =>
    intro a _ hinv s
    simpa using hinv s
  | cons c rest ih =>
    intro a hsz hinv s
    simp only [List.foldl_cons]
    exact ih (assignStep fv ft a c)
      (fun x hx => hsz x (List.mem_cons_of_mem _ hx))
      (assignStep_inv fv ft C hfv hft hsum a c
        (hsz c (List.mem_cons_self _ _)).1 (hsz c (List.mem_cons_self _ _)).2
        hinv) s

/-- C1 (amended): the Split Assigner processes contigs in order, keeps
running totals per split, and assigns each whole contig to the split
furthest below its target fraction; each split's realized total then stays
within `(1 + targetFrac) * C` of its target share, where `C` bounds every
contig size — within twice one contig's size, though not always within
one. -/
theorem assignContigs_deviation_within (fv ft C : ℚ) (sizes : List ℚ)
    (hfv : 0 ≤ fv) (hft : 0 ≤ ft) (hsum : fv + ft ≤ 1) (hC : 0 ≤ C)
    (hsz : ∀ c ∈ sizes, 0 ≤ c ∧ c ≤ C) (s : Split) :
    |targetFrac fv ft s * (assignContigs fv ft sizes).total -
      (assignContigs fv ft sizes).get s| ≤ (1 + targetFrac fv ft s) * C := by
  have hbase : ∀ s', (⟨0, 0, 0⟩ : SplitTotals).get s' -
      targetFrac fv ft s' * (⟨0, 0, 0⟩ : SplitTotals).total ≤
      (1 - targetFrac fv ft s') * C := by
    intro s'
    have h1 : targetFrac fv ft s' ≤ 1 := targetFrac_le_one fv ft hfv hft hsum s'
    have h2 : 0 ≤ (1 - targetFrac fv ft s') * C :=
      mul_nonneg (by linarith) hC
    cases s' <;> simpa [SplitTotals.get, SplitTotals.total] using h2
  have hinv := assign_fold_inv fv ft C hfv hft hsum sizes ⟨0, 0, 0⟩ hsz hbase
  unfold assignContigs
  rw [abs_le]
  constructor
  · have h := hinv s
    have htC : 0 ≤ targetFrac fv ft s * C :=
      mul_nonneg (targetFrac_nonneg fv ft hfv hft hsum s) hC
    have e1 : (1 - targetFrac fv ft s) * C = C - targetFrac fv ft s * C := by
      ring
    have e2 : (1 + targetFrac fv ft s) * C = C + targetFrac fv ft s * C := by
      ring
    linarith
  · have hd := deficit_sum fv ft (assignContigs fv ft sizes)
    unfold deficit at hd
    unfold assignContigs at hd
    cases s with
    | train =>
      have h1 := hinv Split.valid
      have h2 := hinv Split.test
      simp only [targetFrac, SplitTotals.get] at h1 h2 hd ⊢
      nlinarith [h1, h2, hd]
    | valid =>
      have h1 := hinv Split.train
      have h2 := hinv Split.test
      simp only [targetFrac, SplitTotals.get] at h1 h2 hd ⊢
      nlinarith [h1, h2, hd]
    | test =>
      have h1 := hinv Split.train
      have h2 := hinv Split.valid
      simp only [targetFrac, SplitTotals.get] at h1 h2 hd ⊢
      nlinarith [h1, h2, hd]

/-- Counterexample to C1 as stated: with the tutorial's own 10 %/10 %
fractions and contigs of sizes 2, 2, 1, 2, 2 (every contig at most 2), the
assigner realizes totals 5/2/2 of 9 nucleotides, so the train split sits
11/5 below its 36/5 target share — more than one contig's size 2. -/
theorem assignContigs_deviation_exceeds_one_contig :
    assignContigs (1/10) (1/10) [2, 2, 1, 2, 2] = ⟨5, 2, 2⟩ ∧
    (∀ c ∈ ([2, 2, 1, 2, 2] : List ℚ), 0 ≤ c ∧ c ≤ 2) ∧
    ¬ |targetFrac (1/10) (1/10) Split.train *
        (assignContigs (1/10) (1/10) [2, 2, 1, 2, 2]).total -
        (assignContigs (1/10) (1/10) [2, 2, 1, 2, 2]).get Split.train| ≤ 2 := by
  have heval : assignContigs (1/10) (1/10) [2, 2, 1, 2, 2] = ⟨5, 2, 2⟩ := by
    norm_num [assignContigs, List.foldl, assignStep, chooseSplit, deficit,
      targetFrac, addTo, SplitTotals.total, SplitTotals.get]
  refine ⟨heval, ?_, ?_⟩
  · intro c hc
    fin_cases hc <;> norm_num
  · rw [heval]
    simp only [targetFrac, SplitTotals.total, SplitTotals.get]
    rw [abs_of_nonneg (by norm_num)]
    norm_num

/-- Witness for the amended C1 at the counterexample's input: the train
deviation 11/5 does satisfy the proved `(1 + targetFrac) * C = 18/5`
bound. -/
theorem assignContigs_deviation_witness :
    (0:ℚ) ≤ 1/10 ∧ (0:ℚ) ≤ 1/10 ∧ (1:ℚ)/10 + 1/10 ≤ 1 ∧ (0:ℚ) ≤ 2 ∧
    (∀ c ∈ ([2, 2, 1, 2, 2] : List ℚ), 0 ≤ c ∧ c ≤ 2) ∧
    |targetFrac (1/10) (1/10) Split.train *
      (assignContigs (1/10) (1/10) [2, 2, 1, 2, 2]).total -
      (assignContigs (1/10) (1/10) [2, 2, 1, 2, 2]).get Split.train| ≤
      (1 + targetFrac (1/10) (1/10) Split.train) * 2 := by
  have hsz : ∀ c ∈ ([2, 2, 1, 2, 2] : List ℚ), 0 ≤ c ∧ c ≤ 2 := by
    intro c hc
    fin_cases hc <;> norm_num
  exact ⟨by norm_num, by norm_num, by norm_num, by norm_num, hsz,
    assignContigs_deviation_within (1/10) (1/10) 2 [2, 2, 1, 2, 2]
      (by norm_num) (by norm_num) (by norm_num) (by norm_num) hsz Split.train⟩

end Basenji
